import Mathlib

/-!
Verification of the KeywordBuilder generation engine.

The definitions below are a shallow embedding of the pure generation
functions of `keyword_builder.py` and of the generation/grouping loops of
`run.py`.  Python lists become Lean lists, Python dicts (used only through
`name in d` / `d[name]` / `d.get`) become association lists queried with
`List.lookup`, `itertools.combinations` / `itertools.permutations` are
embedded as executable recursive functions producing tuples in the exact
order itertools documents (index-lexicographic), and `Optional[str]`
becomes `Option String`.
-/

/-- The `{` character (used by template placeholders). -/
def lbrace : Char := '\x7b'

/-- The `}` character (used by template placeholders). -/
def rbrace : Char := '\x7d'

/-- The ASCII whitespace characters recognised by Python's `str.split()` /
`str.strip()` (space, tab, newline, carriage return, vertical tab, form feed). -/
def pyIsSpace (c : Char) : Bool :=
  c == ' ' || c == '\t' || c == '\n' || c == '\r' || c == '\x0b' || c == '\x0c'

/-- All ways to pick one element out of a list, returning the picked element
together with the remaining elements in their original order.  The picks are
returned in the order of the original list.  This is the building block of
`itertools.permutations`' index-lexicographic enumeration order. -/
def selections {α : Type} : List α → List (α × List α)
  | [] => []
  | x :: xs => (x, xs) :: (selections xs).map (fun p => (p.1, x :: p.2))

/-- `itertools.permutations(pool, r)`: all length-`r` arrangements of elements
of `pool`, emitted in index-lexicographic order. -/
def permutationsLen {α : Type} : Nat → List α → List (List α)
  | 0, _ => [[]]
  | r + 1, xs => (selections xs).flatMap (fun p => (permutationsLen r p.2).map (p.1 :: ·))

/-- `itertools.combinations(pool, r)`: all length-`r` subsequences of `pool`,
emitted in index-lexicographic order. -/
def combinationsLen {α : Type} : Nat → List α → List (List α)
  | 0, _ => [[]]
  | _ + 1, [] => []
  | r + 1, x :: xs => (combinationsLen r xs).map (x :: ·) ++ combinationsLen (r + 1) xs

/-- Embedding of `keyword_builder.generate_keywords_with_core`:

    max_len = len(fields)
    start_len = min(min_fields, max_len) if min_fields is not None else max_len
    for length in range(start_len, max_len + 1):
        for combo in itertools.combinations(fields, length):
            for perm in itertools.permutations(combo, length):
                for pos in range(length + 1):
                    parts = list(perm[:pos]) + [core_phrase] + list(perm[pos:])
                    results.append(" ".join(parts))
-/
def generate_keywords_with_core (core_phrase : String) (fields : List String)
    (min_fields : Option Nat) : List String :=
  let maxLen := fields.length
  let startLen := match min_fields with
    | some k => min k maxLen
    | none => maxLen
  (List.range' startLen (maxLen + 1 - startLen)).flatMap (fun length =>
    (combinationsLen length fields).flatMap (fun combo =>
      (permutationsLen length combo).flatMap (fun perm =>
        (List.range (length + 1)).map (fun pos =>
          String.intercalate " " (perm.take pos ++ core_phrase :: perm.drop pos)))))

example : permutationsLen 2 ["a", "b", "c"] =
    [["a", "b"], ["a", "c"], ["b", "a"], ["b", "c"], ["c", "a"], ["c", "b"]] := by decide

example : combinationsLen 2 ["a", "b", "c"] =
    [["a", "b"], ["a", "c"], ["b", "c"]] := by decide

example : generate_keywords_with_core "X" ["a", "b"] none =
    ["X a b", "a X b", "a b X", "X b a", "b X a", "b a X"] := by decide

example : generate_keywords_with_core "X" [] none = ["X"] := by decide

example : generate_keywords_with_core "X" ["a", "b"] (some 1) =
    ["X a", "a X", "X b", "b X", "X a b", "a X b", "a b X", "X b a", "b X a", "b a X"] := by
  decide

/-! ### Counting lemmas for the permutation generator -/

theorem flatMap_length_const {α β : Type} (l : List α) (f : α → List β) (c : Nat)
    (h : ∀ a ∈ l, (f a).length = c) : (l.flatMap f).length = l.length * c := by
  induction l with
  | nil => simp
  | cons x xs ih =>
    have hx := h x (by simp)
    have hrest : ∀ a ∈ xs, (f a).length = c := fun a ha => h a (by simp [ha])
    simp [List.flatMap_cons, List.length_append, hx, ih hrest, Nat.succ_mul, Nat.add_comm]

theorem selections_length {α : Type} (xs : List α) : (selections xs).length = xs.length := by
  induction xs with
  | nil => rfl
  | cons x xs ih => simp [selections, ih]

theorem selections_snd_length {α : Type} {xs : List α} {p : α × List α}
    (hp : p ∈ selections xs) : p.2.length + 1 = xs.length := by
  induction xs generalizing p with
  | nil => simp [selections] at hp
  | cons x xs ih =>
    simp only [selections, List.mem_cons, List.mem_map] at hp
    rcases hp with h | ⟨q, hq, rfl⟩
    · subst h; simp
    · have := ih hq
      simp only [List.length_cons]
      omega

theorem permutationsLen_length {α : Type} :
    ∀ (n : Nat) (xs : List α), xs.length = n → (permutationsLen n xs).length = n.factorial := by
  intro n
  induction n with
  | zero => intro xs h; simp [permutationsLen, Nat.factorial]
  | succ m ih =>
    intro xs h
    have step : ((selections xs).flatMap
        (fun p => (permutationsLen m p.2).map (p.1 :: ·))).length
        = (selections xs).length * m.factorial := by
      refine flatMap_length_const _ _ _ ?_
      intro p hp
      have hlen : p.2.length + 1 = xs.length := selections_snd_length hp
      rw [List.length_map, ih p.2 (by omega)]
    show ((selections xs).flatMap (fun p => (permutationsLen m p.2).map (p.1 :: ·))).length = _
    rw [step, selections_length, h, Nat.factorial_succ]

theorem combinationsLen_eq_nil_of_lt {α : Type} :
    ∀ (r : Nat) (xs : List α), xs.length < r → combinationsLen r xs = [] := by
  intro r xs
  induction xs generalizing r with
  | nil =>
    intro h
    match r, h with
    | r + 1, _ => rfl
  | cons x xs ih =>
    intro h
    match r, h with
    | r + 1, h =>
      have h1 : xs.length < r := by simpa using h
      have h2 : xs.length < r + 1 := by omega
      simp [combinationsLen, ih r h1, ih (r + 1) h2]

theorem combinationsLen_self {α : Type} (xs : List α) :
    combinationsLen xs.length xs = [xs] := by
  induction xs with
  | nil => rfl
  | cons x xs ih =>
    simp only [List.length_cons, combinationsLen, ih,
      combinationsLen_eq_nil_of_lt (xs.length + 1) xs (by omega)]
    rfl

/-- With `min_fields = None` the generator enumerates exactly the
permutations of the full field list (in itertools order), with the core
inserted at every position in ascending order. -/
theorem generate_none_eq (core : String) (fields : List String) :
    generate_keywords_with_core core fields none =
      (permutationsLen fields.length fields).flatMap (fun perm =>
        (List.range (fields.length + 1)).map (fun pos =>
          String.intercalate " " (perm.take pos ++ core :: perm.drop pos))) := by
  show (List.range' fields.length (fields.length + 1 - fields.length)).flatMap _ = _
  have h1 : fields.length + 1 - fields.length = 1 := by omega
  rw [h1]
  show (combinationsLen fields.length fields).flatMap _ ++ [] = _
  rw [List.append_nil, combinationsLen_self]
  show _ ++ [] = _
  rw [List.append_nil]

/-- C1: with `minFields = None`, the generator produces exactly
`n! × (n+1)` phrases for a field list of length `n`. -/
theorem c1_generate_count (core : String) (fields : List String) :
    (generate_keywords_with_core core fields none).length =
      fields.length.factorial * (fields.length + 1) := by
  rw [generate_none_eq]
  rw [flatMap_length_const _ _ (fields.length + 1) (by intro a _; simp)]
  rw [permutationsLen_length fields.length fields rfl]

/-- C2: with `minFields = None` the generator emits, in order, every
permutation of the full field list in itertools order, and for each
permutation the core insertion positions ascending from 0; in particular
`generate("X", ["a","b"], None)` is exactly
`["X a b", "a X b", "a b X", "X b a", "b X a", "b a X"]`. -/
theorem c2_generate_order :
    (∀ (core : String) (fields : List String),
      generate_keywords_with_core core fields none =
        (permutationsLen fields.length fields).flatMap (fun perm =>
          (List.range (fields.length + 1)).map (fun pos =>
            String.intercalate " " (perm.take pos ++ core :: perm.drop pos)))) ∧
    generate_keywords_with_core "X" ["a", "b"] none =
      ["X a b", "a X b", "a b X", "X b a", "b X a", "b a X"] := by
  exact ⟨generate_none_eq, by decide⟩

/-- C3 counterexample: on an empty field list the generator does NOT return
an empty sequence (it returns the core phrase alone). -/
theorem c3_counterexample :
    generate_keywords_with_core "X" [] none ≠ [] := by decide

/-- C3 amended: for every core phrase and every value of `minFields`, the
generator applied to an empty field list returns the one-element sequence
containing just the core phrase. -/
theorem c3_amended (core : String) (mf : Option Nat) :
    generate_keywords_with_core core [] mf = [core] := by
  cases mf with
  | none => rfl
  | some k =>
    show (List.range' (min k 0) (0 + 1 - min k 0)).flatMap _ = _
    rw [Nat.min_zero]
    rfl

/-! ### Template renderer -/

/-- Placeholder extraction automaton, embedding
`re.findall(r'{([^{}]+)}', tmpl)`.  The second argument is `none` while
scanning for a `{`, and `some acc` (with `acc` the reversed characters
collected so far) while inside a candidate placeholder.  An inner `{`
restarts the candidate (the regex backtracks to the later `{`); a `}` on an
empty candidate is not a match (the name class `[^{}]+` needs at least one
character). -/
def phAux : List Char → Option (List Char) → List (List Char)
  | [], _ => []
  | c :: cs, none =>
    if c = lbrace then phAux cs (some []) else phAux cs none
  | c :: cs, some acc =>
    if c = rbrace then
      if acc = [] then phAux cs none
      else acc.reverse :: phAux cs none
    else if c = lbrace then phAux cs (some [])
    else phAux cs (some (c :: acc))

/-- Embedding of `keyword_builder._extract_placeholders`. -/
def extract_placeholders (tmpl : String) : List String :=
  (phAux tmpl.data none).map String.mk

/-- Worker for `replaceAux`; the fuel argument (instantiated with the input
length) only makes the recursion structural and never runs out. -/
def replaceF (pat rep : List Char) : Nat → List Char → List Char
  | 0, s => s
  | _ + 1, [] => []
  | fuel + 1, c :: cs =>
    if pat <+: (c :: cs) ∧ pat ≠ [] then
      rep ++ replaceF pat rep fuel (cs.drop (pat.length - 1))
    else
      c :: replaceF pat rep fuel cs

/-- Embedding of Python `str.replace(pat, rep)` on character lists: replace
every non-overlapping occurrence of `pat`, scanning left to right, without
rescanning the replacement text. -/
def replaceAux (pat rep s : List Char) : List Char :=
  replaceF pat rep s.length s

/-- Embedding of Python `str.split()` (no separator argument): split on runs
of whitespace, dropping empty pieces.  `acc` holds the reversed characters of
the word currently being read. -/
def wordsAux : List Char → List Char → List (List Char)
  | [], acc => if acc = [] then [] else [acc.reverse]
  | c :: cs, acc =>
    if pyIsSpace c then
      if acc = [] then wordsAux cs []
      else acc.reverse :: wordsAux cs []
    else wordsAux cs (c :: acc)

/-- Embedding of Python `str.strip()`: drop leading and trailing whitespace. -/
def stripWs (s : List Char) : List Char :=
  ((s.dropWhile pyIsSpace).reverse.dropWhile pyIsSpace).reverse

/-- Embedding of `" ".join(result.split()).strip()`. -/
def normalizeWs (s : List Char) : List Char :=
  stripWs (List.intercalate [' '] (wordsAux s []))

/-- The sequential substitution loop of `render_template`:

    for name in placeholders:
        result = result.replace('{' + name + '}', mapping[name])
-/
def substFold (tmpl : List Char) (mapping : List (String × String))
    (placeholders : List String) : List Char :=
  placeholders.foldl (fun r name =>
    replaceAux (lbrace :: name.data ++ [rbrace])
      (((mapping.lookup name).getD "").data) r) tmpl

/-- Embedding of `keyword_builder.render_template`.  Returns `none` (the
"no output" sentinel, Python `None`) when a placeholder is absent from the
mapping or maps to an empty value, or when the substituted and
whitespace-normalized result is empty. -/
def render_template (tmpl : String) (mapping : List (String × String)) : Option String :=
  let placeholders := extract_placeholders tmpl
  if placeholders.all (fun name =>
      match mapping.lookup name with
      | some v => !(v == "")
      | none => false) then
    let result := substFold tmpl.data mapping placeholders
    let norm := normalizeWs result
    if norm = [] then none else some (String.mk norm)
  else
    none

example : extract_placeholders "\x7bcore\x7d in \x7bcity\x7d" = ["core", "city"] := by decide

example : extract_placeholders "\x7ba\x7bb\x7d" = ["b"] := by decide

example : extract_placeholders "\x7b\x7d x" = [] := by decide

example : render_template "\x7bcore\x7d in \x7bcity\x7d"
    [("core", "shoes"), ("city", "Reno")] = some "shoes in Reno" := by decide

example : render_template "\x7bcore\x7d in \x7bcity\x7d" [("core", "shoes")] = none := by decide

example : render_template "  a   b  " [] = some "a b" := by decide

example : render_template "\x7bx\x7d" [("x", " ")] = none := by decide

example : render_template "\x7ba\x7d \x7bb\x7d" [("a", "\x7bb\x7d"), ("b", "z")] =
    some "z z" := by decide

/-! ### Basic lemmas about `replaceAux` -/

theorem replaceF_congr (pat rep : List Char) :
    ∀ (fuel₁ fuel₂ : Nat) (s : List Char), s.length ≤ fuel₁ → s.length ≤ fuel₂ →
      replaceF pat rep fuel₁ s = replaceF pat rep fuel₂ s := by
  intro fuel₁
  induction fuel₁ with
  | zero =>
    intro fuel₂ s h₁ h₂
    have hs : s = [] := List.eq_nil_of_length_eq_zero (Nat.le_zero.mp h₁)
    subst hs
    cases fuel₂ <;> rfl
  | succ f ih =>
    intro fuel₂ s h₁ h₂
    cases s with
    | nil => cases fuel₂ <;> rfl
    | cons c cs =>
      cases fuel₂ with
      | zero => simp at h₂
      | succ g =>
        simp only [replaceF]
        by_cases hc : pat <+: (c :: cs) ∧ pat ≠ []
        · simp only [if_pos hc]
          congr 1
          apply ih
          · simp only [List.length_drop]
            simp only [List.length_cons] at h₁
            omega
          · simp only [List.length_drop]
            simp only [List.length_cons] at h₂
            omega
        · simp only [if_neg hc]
          congr 1
          apply ih
          · simp only [List.length_cons] at h₁; omega
          · simp only [List.length_cons] at h₂; omega

theorem replaceAux_nil (pat rep : List Char) : replaceAux pat rep [] = [] := rfl

theorem replaceAux_cons_pos {pat : List Char} {c : Char} {cs : List Char}
    (rep : List Char) (h : pat <+: (c :: cs)) (hne : pat ≠ []) :
    replaceAux pat rep (c :: cs) = rep ++ replaceAux pat rep (cs.drop (pat.length - 1)) := by
  show replaceF pat rep (cs.length + 1) (c :: cs) = _
  simp only [replaceF, if_pos (And.intro h hne)]
  congr 1
  apply replaceF_congr
  · simp only [List.length_drop]; omega
  · exact Nat.le_refl _

theorem replaceAux_cons_neg {pat : List Char} {c : Char} {cs : List Char}
    (rep : List Char) (h : ¬(pat <+: (c :: cs) ∧ pat ≠ [])) :
    replaceAux pat rep (c :: cs) = c :: replaceAux pat rep cs := by
  show replaceF pat rep (cs.length + 1) (c :: cs) = _
  simp only [replaceF, if_neg h]
  rfl

/-! ### C4: the no-output sentinel of the renderer -/

theorem render_check_iff (m : List (String × String)) (name : String) :
    ((match m.lookup name with
      | some v => !(v == "")
      | none => false) = true) ↔
      ¬(m.lookup name = none ∨ m.lookup name = some "") := by
  cases h : m.lookup name with
  | none => simp
  | some v =>
    simp only [Bool.not_eq_true']
    constructor
    · intro hv hc
      rcases hc with hc | hc
      · exact Option.noConfusion hc
      · have : v = "" := by
          have := Option.some.inj hc
          exact this
        simp [this] at hv
    · intro hc
      by_cases hv : v = ""
      · exact absurd (Or.inr (by rw [hv])) hc
      · simp [hv]

/-- C4: `render_template` returns the no-output sentinel (`none`) if and only
if some placeholder extracted from the template is absent from the mapping or
maps to an empty string, or the substituted and whitespace-normalized result
is empty; in every other case it returns the substituted, normalized string.
In particular `render("{core} in {city}", {core: "shoes", city: "Reno"})` is
`"shoes in Reno"`, and the same template without `city` yields the sentinel. -/
theorem c4_render_none_iff :
    (∀ (tmpl : String) (m : List (String × String)),
      render_template tmpl m = none ↔
        ((∃ name ∈ extract_placeholders tmpl,
            m.lookup name = none ∨ m.lookup name = some "") ∨
         normalizeWs (substFold tmpl.data m (extract_placeholders tmpl)) = [])) ∧
    render_template "\x7bcore\x7d in \x7bcity\x7d"
      [("core", "shoes"), ("city", "Reno")] = some "shoes in Reno" ∧
    render_template "\x7bcore\x7d in \x7bcity\x7d" [("core", "shoes")] = none := by
  refine ⟨?_, by decide, by decide⟩
  intro tmpl m
  show (if (extract_placeholders tmpl).all _ = true then _ else _) = none ↔ _
  by_cases hall : (extract_placeholders tmpl).all (fun name =>
      match m.lookup name with
      | some v => !(v == "")
      | none => false) = true
  · rw [if_pos hall]
    rw [List.all_eq_true] at hall
    have hnone : ¬ ∃ name ∈ extract_placeholders tmpl,
        m.lookup name = none ∨ m.lookup name = some "" := by
      rintro ⟨name, hmem, hbad⟩
      exact (render_check_iff m name).mp (hall name hmem) hbad
    by_cases hempty : normalizeWs (substFold tmpl.data m (extract_placeholders tmpl)) = []
    · rw [if_pos hempty]
      exact ⟨fun _ => Or.inr hempty, fun _ => rfl⟩
    · rw [if_neg hempty]
      constructor
      · intro h
        exact Option.noConfusion h
      · intro h
        rcases h with h | h
        · exact absurd h hnone
        · exact absurd h hempty
  · rw [if_neg hall]
    rw [List.all_eq_true] at hall
    push_neg at hall
    rcases hall with ⟨name, hmem, hbad⟩
    have : m.lookup name = none ∨ m.lookup name = some "" := by
      by_contra hc
      exact hbad ((render_check_iff m name).mpr hc)
    simp only [true_iff]
    exact Or.inl ⟨name, hmem, this⟩

/-! ### C6: whitespace discipline of rendered output -/

/-- Adjacent characters are never both whitespace. -/
def noAdjSpace (l : List Char) : Prop :=
  List.Chain' (fun a b => ¬(pyIsSpace a = true ∧ pyIsSpace b = true)) l

theorem chain'_of_all_nonspace {l : List Char}
    (h : ∀ c ∈ l, pyIsSpace c = false) : noAdjSpace l := by
  induction l with
  | nil => exact List.chain'_nil
  | cons x xs ih =>
    rw [noAdjSpace, List.chain'_cons']
    refine ⟨?_, ih fun c hc => h c (by simp [hc])⟩
    intro y _ hcon
    have := h x (by simp)
    rw [this] at hcon
    exact Bool.noConfusion hcon.1

theorem noAdjSpace_no_double (l : List Char) (h : noAdjSpace l) :
    ¬([' ', ' '] <:+: l) := by
  rintro ⟨s, t, rfl⟩
  rw [noAdjSpace, List.append_assoc, List.chain'_append] at h
  have h2 := h.2.1
  rw [show ([' ', ' '] ++ t) = ' ' :: ' ' :: t from rfl, List.chain'_cons] at h2
  exact h2.1 ⟨by decide, by decide⟩

theorem wordsAux_good : ∀ (s acc : List Char), (∀ c ∈ acc, pyIsSpace c = false) →
    ∀ w ∈ wordsAux s acc, w ≠ [] ∧ ∀ c ∈ w, pyIsSpace c = false := by
  intro s
  induction s with
  | nil =>
    intro acc hacc w hw
    by_cases h : acc = []
    · simp [wordsAux, h] at hw
    · simp only [wordsAux, if_neg h, List.mem_singleton] at hw
      subst hw
      constructor
      · simpa using h
      · intro c hc
        exact hacc c (List.mem_reverse.mp hc)
  | cons x xs ih =>
    intro acc hacc w hw
    simp only [wordsAux] at hw
    by_cases hx : pyIsSpace x
    · rw [if_pos hx] at hw
      by_cases h : acc = []
      · rw [if_pos h] at hw
        exact ih [] (by simp) w hw
      · rw [if_neg h] at hw
        rcases List.mem_cons.mp hw with hw | hw
        · subst hw
          exact ⟨by simpa using h, fun c hc => hacc c (List.mem_reverse.mp hc)⟩
        · exact ih [] (by simp) w hw
    · rw [if_neg hx] at hw
      refine ih (x :: acc) ?_ w hw
      intro c hc
      rcases List.mem_cons.mp hc with hc | hc
      · subst hc
        exact Bool.eq_false_iff.mpr hx
      · exact hacc c hc

theorem intercalate_cons_cons (sep : List Char) (x y : List Char) (l : List (List Char)) :
    List.intercalate sep (x :: y :: l) = x ++ sep ++ List.intercalate sep (y :: l) := by
  simp [List.intercalate, List.intersperse]

theorem joinWords_good : ∀ (ws : List (List Char)),
    (∀ w ∈ ws, w ≠ [] ∧ ∀ c ∈ w, pyIsSpace c = false) →
    noAdjSpace (List.intercalate [' '] ws) ∧
    (∀ c, (List.intercalate [' '] ws).head? = some c → pyIsSpace c = false) ∧
    (∀ c, (List.intercalate [' '] ws).getLast? = some c → pyIsSpace c = false) ∧
    (ws ≠ [] → List.intercalate [' '] ws ≠ []) := by
  intro ws
  induction ws with
  | nil =>
    intro _
    refine ⟨List.chain'_nil, ?_, ?_, ?_⟩ <;> simp [List.intercalate]
  | cons w ws ih =>
    intro hall
    have hw := hall w (by simp)
    have hrest : ∀ w' ∈ ws, w' ≠ [] ∧ ∀ c ∈ w', pyIsSpace c = false :=
      fun w' hw' => hall w' (by simp [hw'])
    cases ws with
    | nil =>
      have hsingle : List.intercalate [' '] [w] = w := by
        simp [List.intercalate, List.intersperse]
      rw [hsingle]
      refine ⟨chain'_of_all_nonspace hw.2, ?_, ?_, fun _ => hw.1⟩
      · intro c hc
        exact hw.2 c (List.mem_of_mem_head? hc)
      · intro c hc
        exact hw.2 c (List.mem_of_mem_getLast? hc)
    | cons w' ws' =>
      obtain ⟨ihChain, ihHead, ihLast, ihNe⟩ := ih hrest
      have hT : List.intercalate [' '] (w' :: ws') ≠ [] := ihNe (by simp)
      rw [intercalate_cons_cons]
      have hshape : w ++ [' '] ++ List.intercalate [' '] (w' :: ws') =
          w ++ (' ' :: List.intercalate [' '] (w' :: ws')) := by
        simp
      rw [hshape]
      refine ⟨?_, ?_, ?_, ?_⟩
      · rw [noAdjSpace, List.chain'_append]
        refine ⟨chain'_of_all_nonspace hw.2, ?_, ?_⟩
        · rw [List.chain'_cons']
          refine ⟨?_, ihChain⟩
          intro y hy hcon
          exact (ihHead y hy).symm.trans_ne (by simp [hcon.2]) rfl
        · intro x hx y hy hcon
          have hxl := hw.2 x (List.mem_of_mem_getLast? hx)
          rw [hxl] at hcon
          exact Bool.noConfusion hcon.1
      · intro c hc
        rw [List.head?_append] at hc
        cases hwc : w.head? with
        | none =>
          exact absurd (List.head?_eq_none_iff.mp hwc) hw.1
        | some d =>
          rw [hwc] at hc
          have hcd : d = c := by simpa using hc
          subst hcd
          exact hw.2 d (List.mem_of_mem_head? (by rw [hwc]; rfl))
      · intro c hc
        rw [List.getLast?_append] at hc
        have hTlast : (' ' :: List.intercalate [' '] (w' :: ws')).getLast? =
            (List.intercalate [' '] (w' :: ws')).getLast? := by
          cases hE : List.intercalate [' '] (w' :: ws') with
          | nil => exact absurd hE hT
          | cons a as => simp
        rw [hTlast] at hc
        cases hL : (List.intercalate [' '] (w' :: ws')).getLast? with
        | none =>
          rw [hL] at hc
          cases hE : List.intercalate [' '] (w' :: ws') with
          | nil => exact absurd hE hT
          | cons a as =>
            rw [hE] at hL
            simp [List.getLast?_eq_none_iff] at hL
        | some d =>
          rw [hL] at hc
          have hcd : d = c := by simpa using hc
          subst hcd
          exact ihLast d hL
      · intro _
        intro hcon
        rcases List.append_eq_nil.mp hcon with ⟨h1, _⟩
        exact hw.1 h1

theorem dropWhile_id_of_head {l : List Char}
    (h : ∀ c, l.head? = some c → pyIsSpace c = false) :
    l.dropWhile pyIsSpace = l := by
  cases l with
  | nil => rfl
  | cons c cs =>
    have := h c rfl
    rw [List.dropWhile_cons_of_neg]
    rw [this]
    exact Bool.false_ne_true

theorem stripWs_id {l : List Char}
    (hhead : ∀ c, l.head? = some c → pyIsSpace c = false)
    (hlast : ∀ c, l.getLast? = some c → pyIsSpace c = false) :
    stripWs l = l := by
  rw [stripWs, dropWhile_id_of_head hhead]
  rw [dropWhile_id_of_head (by
    intro c hc
    rw [List.head?_reverse] at hc
    exact hlast c hc)]
  exact List.reverse_reverse l

theorem normalizeWs_good (s : List Char) :
    noAdjSpace (normalizeWs s) ∧
    (∀ c, (normalizeWs s).head? = some c → pyIsSpace c = false) ∧
    (∀ c, (normalizeWs s).getLast? = some c → pyIsSpace c = false) := by
  have hwords := wordsAux_good s [] (by simp)
  obtain ⟨hchain, hhead, hlast, _⟩ := joinWords_good (wordsAux s []) hwords
  have hstrip : normalizeWs s = List.intercalate [' '] (wordsAux s []) :=
    stripWs_id hhead hlast
  rw [normalizeWs] at hstrip
  rw [normalizeWs, hstrip]
  exact ⟨hchain, hhead, hlast⟩

/-- C6: whenever `render_template` returns a string rather than the
no-output sentinel, that string contains no two consecutive spaces and has
no leading or trailing whitespace. -/
theorem c6_render_whitespace (tmpl : String) (m : List (String × String)) (s : String)
    (h : render_template tmpl m = some s) :
    ¬([' ', ' '] <:+: s.data) ∧
    (∀ c, s.data.head? = some c → pyIsSpace c = false) ∧
    (∀ c, s.data.getLast? = some c → pyIsSpace c = false) := by
  rw [render_template] at h
  by_cases hall : (extract_placeholders tmpl).all (fun name =>
      match m.lookup name with
      | some v => !(v == "")
      | none => false) = true
  · rw [if_pos hall] at h
    by_cases hempty :
        normalizeWs (substFold tmpl.data m (extract_placeholders tmpl)) = []
    · rw [if_pos hempty] at h
      exact Option.noConfusion h
    · rw [if_neg hempty] at h
      have hs := Option.some.inj h
      have hdata : s.data = normalizeWs (substFold tmpl.data m (extract_placeholders tmpl)) := by
        rw [← hs]
      obtain ⟨hchain, hhead, hlast⟩ :=
        normalizeWs_good (substFold tmpl.data m (extract_placeholders tmpl))
      rw [hdata]
      exact ⟨noAdjSpace_no_double _ hchain, hhead, hlast⟩
  · rw [if_neg hall] at h
    exact Option.noConfusion h

/-- Witness for C6 at the concrete input `render("a  b", {}) = "a b"`. -/
theorem c6_render_whitespace_witness :
    ¬([' ', ' '] <:+: ("a b" : String).data) ∧
    (∀ c, ("a b" : String).data.head? = some c → pyIsSpace c = false) ∧
    (∀ c, ("a b" : String).data.getLast? = some c → pyIsSpace c = false) :=
  c6_render_whitespace "a  b" [] "a b" (by decide)

/-! ### Template expanders (string mode) -/

/-- `mapping = dict(row); mapping['core'] = core_phrase`, modelled for
`List.lookup`: the `core` binding shadows any `core` column of the row. -/
def mappingWithCore (row : List (String × String)) (core_phrase : String) :
    List (String × String) :=
  ("core", core_phrase) :: row

/-- The body of `if rendered: out.append(rendered)` as a list: Python
truthiness drops both `None` and the empty string. -/
def keepRendered (o : Option String) : List String :=
  match o with
  | some rendered => if rendered = "" then [] else [rendered]
  | none => []

/-- Embedding of `keyword_builder.generate_keywords_from_templates_list`
(core phrase outer, secondary row middle, template inner). -/
def generate_keywords_from_templates_list (core_keywords : List String)
    (secondary_rows : List (List (String × String))) (templates : List String) :
    List String :=
  core_keywords.foldl (fun out core_phrase =>
    secondary_rows.foldl (fun out row =>
      templates.foldl (fun out tmpl =>
        match render_template tmpl (mappingWithCore row core_phrase) with
        | some rendered => if rendered = "" then out else out ++ [rendered]
        | none => out) out) out) []

/-- Embedding of
`keyword_builder.generate_keywords_from_templates_list_row_grouped`
(secondary row outer, core phrase middle, template inner). -/
def generate_keywords_from_templates_list_row_grouped (core_keywords : List String)
    (secondary_rows : List (List (String × String))) (templates : List String) :
    List String :=
  secondary_rows.foldl (fun out row =>
    core_keywords.foldl (fun out core_phrase =>
      templates.foldl (fun out tmpl =>
        match render_template tmpl (mappingWithCore row core_phrase) with
        | some rendered => if rendered = "" then out else out ++ [rendered]
        | none => out) out) out) []

theorem foldl_extend_eq_flatMap {α β : Type} (g : List β → α → List β) (f : α → List β)
    (hg : ∀ out a, g out a = out ++ f a) :
    ∀ (l : List α) (out : List β), l.foldl g out = out ++ l.flatMap f := by
  intro l
  induction l with
  | nil => intro out; simp
  | cons x xs ih =>
    intro out
    rw [List.foldl_cons, ih, hg, List.flatMap_cons, List.append_assoc]

theorem templates_loop_eq (row : List (String × String)) (core_phrase : String)
    (templates : List String) (out : List String) :
    templates.foldl (fun out tmpl =>
      match render_template tmpl (mappingWithCore row core_phrase) with
      | some rendered => if rendered = "" then out else out ++ [rendered]
      | none => out) out =
    out ++ templates.flatMap (fun tmpl =>
      keepRendered (render_template tmpl (mappingWithCore row core_phrase))) := by
  apply foldl_extend_eq_flatMap
  intro out tmpl
  cases h : render_template tmpl (mappingWithCore row core_phrase) with
  | none => simp [keepRendered]
  | some rendered =>
    by_cases hr : rendered = "" <;> simp [keepRendered, hr]

theorem rowGrouped_eq_flatMap (core_keywords : List String)
    (secondary_rows : List (List (String × String))) (templates : List String) :
    generate_keywords_from_templates_list_row_grouped core_keywords secondary_rows templates =
      secondary_rows.flatMap (fun row =>
        core_keywords.flatMap (fun core_phrase =>
          templates.flatMap (fun tmpl =>
            keepRendered (render_template tmpl (mappingWithCore row core_phrase))))) := by
  show secondary_rows.foldl _ [] = _
  rw [foldl_extend_eq_flatMap _ _ ?_ secondary_rows []
    , List.nil_append]
  intro out row
  rw [foldl_extend_eq_flatMap _ _ ?_ core_keywords out]
  intro out core_phrase
  exact templates_loop_eq row core_phrase templates out

theorem coreGrouped_eq_flatMap (core_keywords : List String)
    (secondary_rows : List (List (String × String))) (templates : List String) :
    generate_keywords_from_templates_list core_keywords secondary_rows templates =
      core_keywords.flatMap (fun core_phrase =>
        secondary_rows.flatMap (fun row =>
          templates.flatMap (fun tmpl =>
            keepRendered (render_template tmpl (mappingWithCore row core_phrase))))) := by
  show core_keywords.foldl _ [] = _
  rw [foldl_extend_eq_flatMap _ _ ?_ core_keywords []
    , List.nil_append]
  intro out core_phrase
  rw [foldl_extend_eq_flatMap _ _ ?_ secondary_rows out]
  intro out row
  exact templates_loop_eq row core_phrase templates out

/-- C7: the row-grouped expander emits exactly the concatenation, in order,
over each secondary row (outer), each core phrase (middle) and each template
(inner), of the successfully rendered phrases, skipping the no-output
sentinel. -/
theorem c7_row_grouped_order (core_keywords : List String)
    (secondary_rows : List (List (String × String))) (templates : List String) :
    generate_keywords_from_templates_list_row_grouped core_keywords secondary_rows templates =
      secondary_rows.flatMap (fun row =>
        core_keywords.flatMap (fun core_phrase =>
          templates.flatMap (fun tmpl =>
            keepRendered (render_template tmpl (mappingWithCore row core_phrase))))) :=
  rowGrouped_eq_flatMap core_keywords secondary_rows templates

/-! ### Stable de-duplication -/

/-- The forward scan of `dedupe_preserve_order`; `seen` models the Python
set (membership is value equality). -/
def dedupeAux (seen : List String) : List String → List String
  | [] => []
  | kw :: rest =>
    if kw ∈ seen then dedupeAux seen rest
    else kw :: dedupeAux (kw :: seen) rest

/-- Embedding of `dedupe_preserve_order` (identical in `keyword_builder.py`
and `run.py`). -/
def dedupe_preserve_order (keywords : List String) : List String :=
  dedupeAux [] keywords

theorem dedupeAux_sublist (seen : List String) :
    ∀ l : List String, (dedupeAux seen l).Sublist l := by
  intro l
  induction l generalizing seen with
  | nil => exact List.Sublist.refl []
  | cons kw rest ih =>
    by_cases h : kw ∈ seen
    · simp only [dedupeAux, if_pos h]
      exact (ih seen).cons kw
    · simp only [dedupeAux, if_neg h]
      exact (ih (kw :: seen)).cons₂ kw

theorem mem_dedupeAux {seen : List String} :
    ∀ {l : List String} {x : String}, x ∈ dedupeAux seen l ↔ (x ∈ l ∧ x ∉ seen) := by
  intro l
  induction l generalizing seen with
  | nil => intro x; simp [dedupeAux]
  | cons kw rest ih =>
    intro x
    by_cases h : kw ∈ seen
    · simp only [dedupeAux, if_pos h, ih, List.mem_cons]
      constructor
      · rintro ⟨hx, hn⟩
        exact ⟨Or.inr hx, hn⟩
      · rintro ⟨hx | hx, hn⟩
        · subst hx; exact absurd h hn
        · exact ⟨hx, hn⟩
    · simp only [dedupeAux, if_neg h, List.mem_cons, ih]
      constructor
      · rintro (rfl | ⟨hx, hn⟩)
        · exact ⟨Or.inl rfl, h⟩
        · refine ⟨Or.inr hx, fun hc => hn (by simp [hc])⟩
      · rintro ⟨rfl | hx, hn⟩
        · exact Or.inl rfl
        · by_cases hxk : x = kw
          · exact Or.inl hxk
          · exact Or.inr ⟨hx, by simp [hxk, hn]⟩

theorem dedupeAux_nodup (seen : List String) :
    ∀ l : List String, (dedupeAux seen l).Nodup := by
  intro l
  induction l generalizing seen with
  | nil => exact List.nodup_nil
  | cons kw rest ih =>
    by_cases h : kw ∈ seen
    · simp only [dedupeAux, if_pos h]
      exact ih seen
    · simp only [dedupeAux, if_neg h]
      refine List.Nodup.cons ?_ (ih (kw :: seen))
      intro hc
      exact (mem_dedupeAux.mp hc).2 (by simp)

theorem dedupeAux_seen_congr :
    ∀ (l : List String) (seen₁ seen₂ : List String), (∀ a, a ∈ seen₁ ↔ a ∈ seen₂) →
      dedupeAux seen₁ l = dedupeAux seen₂ l := by
  intro l
  induction l with
  | nil => intro seen₁ seen₂ _; rfl
  | cons kw rest ih =>
    intro seen₁ seen₂ h
    by_cases hk : kw ∈ seen₁
    · simp only [dedupeAux, if_pos hk, if_pos ((h kw).mp hk)]
      exact ih seen₁ seen₂ h
    · simp only [dedupeAux, if_neg hk, if_neg (fun hc => hk ((h kw).mpr hc))]
      congr 1
      refine ih _ _ ?_
      intro a
      simp [h a]

theorem dedupeAux_cons_seen (x : String) (seen : List String) :
    ∀ l : List String, dedupeAux (x :: seen) l =
      dedupeAux seen (l.filter (fun y => y ≠ x)) := by
  intro l
  induction l generalizing seen with
  | nil => rfl
  | cons kw rest ih =>
    by_cases hx : kw = x
    · subst hx
      simp only [dedupeAux, if_pos (by simp : kw ∈ kw :: seen)]
      rw [List.filter_cons_of_neg (by simp)]
      exact ih seen
    · rw [List.filter_cons_of_pos (by simp [hx])]
      by_cases hk : kw ∈ seen
      · simp only [dedupeAux, if_pos (by simp [hk] : kw ∈ x :: seen), if_pos hk]
        exact ih seen
      · have hnot : kw ∉ x :: seen := by simp [hx, hk]
        simp only [dedupeAux, if_neg hnot, if_neg hk]
        congr 1
        rw [dedupeAux_seen_congr rest (kw :: x :: seen) (x :: kw :: seen)
          (by intro a; simp only [List.mem_cons]; tauto)]
        exact ih (kw :: seen)

/-- C8: `dedupe_preserve_order` keeps exactly the first occurrence of every
value: the result is a duplicate-free subsequence of the input with the same
members, it satisfies the first-occurrence recurrence
`dedupe (x :: l) = x :: dedupe (l minus all later copies of x)`, and
`dedupe([a,b,a,c,b]) = [a,b,c]`. -/
theorem c8_dedupe_first_occurrence :
    (∀ l : List String,
      (dedupe_preserve_order l).Sublist l ∧
      (dedupe_preserve_order l).Nodup ∧
      (∀ x, x ∈ dedupe_preserve_order l ↔ x ∈ l)) ∧
    (∀ (x : String) (l : List String),
      dedupe_preserve_order (x :: l) =
        x :: dedupe_preserve_order (l.filter (fun y => y ≠ x))) ∧
    dedupe_preserve_order ["a", "b", "a", "c", "b"] = ["a", "b", "c"] := by
  refine ⟨?_, ?_, by decide⟩
  · intro l
    refine ⟨dedupeAux_sublist [] l, dedupeAux_nodup [] l, ?_⟩
    intro x
    rw [dedupe_preserve_order, mem_dedupeAux]
    simp
  · intro x l
    show dedupeAux [] (x :: l) = _
    simp only [dedupeAux, if_neg (List.not_mem_nil x)]
    rw [dedupeAux_cons_seen]
    rfl

/-! ### C10: core-grouped vs row-grouped expansion -/

/-- C10: the core-grouped and row-grouped string-template expansions produce
exactly the same set of phrases (each phrase occurs in one output iff it
occurs in the other), so their stable de-duplications are permutations of
each other. -/
theorem c10_core_vs_row_grouped (core_keywords : List String)
    (secondary_rows : List (List (String × String))) (templates : List String) :
    (∀ x, x ∈ generate_keywords_from_templates_list core_keywords secondary_rows templates ↔
      x ∈ generate_keywords_from_templates_list_row_grouped core_keywords secondary_rows
        templates) ∧
    (dedupe_preserve_order
        (generate_keywords_from_templates_list core_keywords secondary_rows templates)).Perm
      (dedupe_preserve_order
        (generate_keywords_from_templates_list_row_grouped core_keywords secondary_rows
          templates)) := by
  have hmem : ∀ x,
      x ∈ generate_keywords_from_templates_list core_keywords secondary_rows templates ↔
      x ∈ generate_keywords_from_templates_list_row_grouped core_keywords secondary_rows
        templates := by
    intro x
    rw [coreGrouped_eq_flatMap, rowGrouped_eq_flatMap]
    simp only [List.mem_flatMap]
    constructor
    · rintro ⟨core_phrase, hc, row, hr, hx⟩
      exact ⟨row, hr, core_phrase, hc, hx⟩
    · rintro ⟨row, hr, core_phrase, hc, hx⟩
      exact ⟨core_phrase, hc, row, hr, hx⟩
  refine ⟨hmem, ?_⟩
  refine (List.perm_ext_iff_of_nodup (dedupeAux_nodup [] _) (dedupeAux_nodup [] _)).mpr ?_
  intro x
  show x ∈ dedupe_preserve_order _ ↔ x ∈ dedupe_preserve_order _
  rw [dedupe_preserve_order, dedupe_preserve_order, mem_dedupeAux, mem_dedupeAux]
  simp only [List.not_mem_nil, not_false_iff, and_true]
  exact hmem x

/-! ### C9: first-occurrence grouping in `run.guided_flow` -/

/-- One pass of `for kw in row_keywords: if kw not in kw_to_group:
kw_to_group[kw] = gv` over the association-list model of the dict. -/
def recordFirst (m : List (String × String)) (kws : List String) (gv : String) :
    List (String × String) :=
  kws.foldl (fun m kw => if (m.lookup kw).isSome then m else m ++ [(kw, gv)]) m

/-- The group value of the template branch of `guided_flow`:
`core` / `row.get(group_key, "") or "unknown"` / `"all"`. -/
def groupValueTemplate (group_key : String) (row : List (String × String))
    (core : String) : String :=
  if group_key = "core" then core
  else if group_key ≠ "none" then
    match row.lookup group_key with
    | some v => if v = "" then "unknown" else v
    | none => "unknown"
  else "all"

/-- The group value of the permutation branch of `guided_flow`:
`core if group_key == "core" else "all"`. -/
def groupValuePerm (group_key : String) (core : String) : String :=
  if group_key = "core" then core else "all"

/-- Embedding of the template-mode generation/grouping loop of
`run.guided_flow` (lines 716-730): row outer, core inner, producing the raw
keyword list and the first-occurrence `kw_to_group` mapping. -/
def guidedTemplateLoop (core_keywords : List String)
    (secondary_dict_rows : List (List (String × String))) (templates : List String)
    (group_key : String) : List String × List (String × String) :=
  secondary_dict_rows.foldl (fun st row =>
    core_keywords.foldl (fun st core =>
      (st.1 ++ generate_keywords_from_templates_list [core] [row] templates,
       recordFirst st.2 (generate_keywords_from_templates_list [core] [row] templates)
         (groupValueTemplate group_key row core))) st) ([], [])

/-- Embedding of the permutation-mode generation/grouping loop of
`run.guided_flow` (lines 732-739). -/
def guidedPermLoop (core_keywords : List String) (secondary_rows : List (List String))
    (group_key : String) : List String × List (String × String) :=
  secondary_rows.foldl (fun st row =>
    core_keywords.foldl (fun st core =>
      (st.1 ++ generate_keywords_with_core core row none,
       recordFirst st.2 (generate_keywords_with_core core row none)
         (groupValuePerm group_key core))) st) ([], [])

/-- One (row, core) step of either loop, parameterised by the generator and
the group-value function. -/
def pairStep {ρ : Type} (G : ρ → String → List String) (V : ρ → String → String)
    (st : List String × List (String × String)) (p : ρ × String) :
    List String × List (String × String) :=
  (st.1 ++ G p.1 p.2, recordFirst st.2 (G p.1 p.2) (V p.1 p.2))

theorem nestedLoop_eq_pairs {ρ σ : Type} (f : σ → ρ → String → σ) :
    ∀ (rows : List ρ) (cores : List String) (st : σ),
      rows.foldl (fun st row => cores.foldl (fun st core => f st row core) st) st =
      (rows.flatMap (fun row => cores.map (fun core => (row, core)))).foldl
        (fun st p => f st p.1 p.2) st := by
  intro rows
  induction rows with
  | nil => intro cores st; rfl
  | cons row rows ih =>
    intro cores st
    rw [List.foldl_cons, List.flatMap_cons, List.foldl_append, ih, List.foldl_map]

theorem recordFirst_lookup :
    ∀ (kws : List String) (m : List (String × String)) (gv kw : String),
      (recordFirst m kws gv).lookup kw =
        (m.lookup kw).or (if kw ∈ kws then some gv else none) := by
  intro kws
  induction kws with
  | nil =>
    intro m gv kw
    simp [recordFirst]
  | cons k rest ih =>
    intro m gv kw
    show (recordFirst (if (m.lookup k).isSome then m else m ++ [(k, gv)]) rest gv).lookup kw = _
    rw [ih]
    by_cases hks : (m.lookup k).isSome
    · rw [if_pos hks]
      by_cases hkk : kw = k
      · subst hkk
        cases hm : m.lookup kw with
        | none => rw [hm] at hks; exact absurd hks (by simp)
        | some v => simp [hm]
      · by_cases hr : kw ∈ rest
        · have hc : kw ∈ k :: rest := by simp [hr]
          rw [if_pos hr, if_pos hc]
        · have hc : kw ∉ k :: rest := by simp [hkk, hr]
          rw [if_neg hr, if_neg hc]
    · rw [if_neg hks]
      rw [List.lookup_append]
      have hone : List.lookup kw [(k, gv)] = if kw = k then some gv else none := by
        by_cases hq : kw = k
        · subst hq; simp
        · have hb : (kw == k) = false := beq_eq_false_iff_ne.mpr hq
          simp [List.lookup_cons, hb, hq]
      rw [hone]
      by_cases hkk : kw = k
      · subst hkk
        have hmn : m.lookup kw = none := by
          cases hm : m.lookup kw with
          | none => rfl
          | some v => rw [hm] at hks; exact absurd (by simp) hks
        have hc : kw ∈ kw :: rest := by simp
        rw [if_pos rfl, if_pos hc, hmn]
        simp
      · rw [if_neg hkk, Option.or_none]
        by_cases hr : kw ∈ rest
        · have hc : kw ∈ k :: rest := by simp [hr]
          rw [if_pos hr, if_pos hc]
        · have hc : kw ∉ k :: rest := by simp [hkk, hr]
          rw [if_neg hr, if_neg hc]

theorem pairsLoop_lookup {ρ : Type} (G : ρ → String → List String)
    (V : ρ → String → String) :
    ∀ (pairs : List (ρ × String)) (st : List String × List (String × String)) (kw : String),
      ((pairs.foldl (pairStep G V) st).2).lookup kw =
        (st.2.lookup kw).or
          ((pairs.find? (fun p => decide (kw ∈ G p.1 p.2))).map (fun p => V p.1 p.2)) := by
  intro pairs
  induction pairs with
  | nil =>
    intro st kw
    simp
  | cons p rest ih =>
    intro st kw
    rw [List.foldl_cons, ih]
    show ((recordFirst st.2 (G p.1 p.2) (V p.1 p.2)).lookup kw).or _ = _
    rw [recordFirst_lookup]
    by_cases hmem : kw ∈ G p.1 p.2
    · rw [if_pos hmem]
      rw [List.find?_cons_of_pos _ (by simpa using hmem)]
      cases st.2.lookup kw <;> simp
    · rw [if_neg hmem]
      rw [List.find?_cons_of_neg _ (by simpa using hmem)]
      cases st.2.lookup kw <;> simp

theorem pairsLoop_raw {ρ : Type} (G : ρ → String → List String)
    (V : ρ → String → String) :
    ∀ (pairs : List (ρ × String)) (st : List String × List (String × String)),
      (pairs.foldl (pairStep G V) st).1 = st.1 ++ pairs.flatMap (fun p => G p.1 p.2) := by
  intro pairs
  induction pairs with
  | nil => intro st; simp
  | cons p rest ih =>
    intro st
    rw [List.foldl_cons, ih]
    show (st.1 ++ G p.1 p.2) ++ _ = _
    rw [List.flatMap_cons, List.append_assoc]

/-- C9: in both phrase-producing branches of `guided_flow` (string-template
mode and permutation mode), the group value recorded for a phrase `kw` is
the one computed from the first (secondary row, core phrase) pair — in raw,
pre-deduplication traversal order (rows outer, cores inner) — whose
generated phrases contain `kw`; later producers never change it.  The raw
keyword list is exactly the concatenation of the per-pair outputs in that
same traversal order. -/
theorem c9_first_occurrence_grouping
    (core_keywords : List String) (templates : List String) (group_key kw : String)
    (secondary_dict_rows : List (List (String × String)))
    (secondary_rows : List (List String)) :
    ((guidedTemplateLoop core_keywords secondary_dict_rows templates group_key).2.lookup kw =
      ((secondary_dict_rows.flatMap (fun row =>
          core_keywords.map (fun core => (row, core)))).find?
        (fun p => decide
          (kw ∈ generate_keywords_from_templates_list [p.2] [p.1] templates))).map
        (fun p => groupValueTemplate group_key p.1 p.2)) ∧
    ((guidedTemplateLoop core_keywords secondary_dict_rows templates group_key).1 =
      (secondary_dict_rows.flatMap (fun row =>
          core_keywords.map (fun core => (row, core)))).flatMap
        (fun p => generate_keywords_from_templates_list [p.2] [p.1] templates)) ∧
    ((guidedPermLoop core_keywords secondary_rows group_key).2.lookup kw =
      ((secondary_rows.flatMap (fun row =>
          core_keywords.map (fun core => (row, core)))).find?
        (fun p => decide (kw ∈ generate_keywords_with_core p.2 p.1 none))).map
        (fun p => groupValuePerm group_key p.2)) ∧
    ((guidedPermLoop core_keywords secondary_rows group_key).1 =
      (secondary_rows.flatMap (fun row =>
          core_keywords.map (fun core => (row, core)))).flatMap
        (fun p => generate_keywords_with_core p.2 p.1 none)) := by
  have hT : guidedTemplateLoop core_keywords secondary_dict_rows templates group_key =
      (secondary_dict_rows.flatMap (fun row =>
          core_keywords.map (fun core => (row, core)))).foldl
        (pairStep (fun row core => generate_keywords_from_templates_list [core] [row] templates)
          (fun row core => groupValueTemplate group_key row core)) ([], []) :=
    nestedLoop_eq_pairs
      (fun st row core =>
        pairStep (fun row core => generate_keywords_from_templates_list [core] [row] templates)
          (fun row core => groupValueTemplate group_key row core) st (row, core))
      secondary_dict_rows core_keywords ([], [])
  have hP : guidedPermLoop core_keywords secondary_rows group_key =
      (secondary_rows.flatMap (fun row =>
          core_keywords.map (fun core => (row, core)))).foldl
        (pairStep (fun row core => generate_keywords_with_core core row none)
          (fun _ core => groupValuePerm group_key core)) ([], []) :=
    nestedLoop_eq_pairs
      (fun st row core =>
        pairStep (fun row core => generate_keywords_with_core core row none)
          (fun _ core => groupValuePerm group_key core) st (row, core))
      secondary_rows core_keywords ([], [])
  refine ⟨?_, ?_, ?_, ?_⟩
  · rw [hT, pairsLoop_lookup]
    simp
  · rw [hT, pairsLoop_raw]
    simp
  · rw [hP, pairsLoop_lookup]
    simp
  · rw [hP, pairsLoop_raw]
    simp

/-! ### C5: literal substitution on well-formed templates -/

/-- A character list containing no brace characters. -/
def braceFree (l : List Char) : Prop :=
  ∀ c ∈ l, c ≠ lbrace ∧ c ≠ rbrace

/-- A template in alternating form: each segment is a placeholder name
followed by the literal text up to the next placeholder. -/
def assembleTail (segs : List (List Char × List Char)) : List Char :=
  segs.foldr (fun seg acc => lbrace :: seg.1 ++ rbrace :: (seg.2 ++ acc)) []

/-- A template whose brace characters all delimit placeholders:
`lit0 {n₁} lit₁ {n₂} lit₂ …`. -/
def assemble (lit0 : List Char) (segs : List (List Char × List Char)) : List Char :=
  lit0 ++ assembleTail segs

/-- Simultaneous, single-pass, literal substitution of the segments'
placeholders: each value is copied verbatim and never rescanned.  This is
the reference meaning of "literal and non-recursive substitution" from the
specification. -/
def substTail (val : List Char → List Char) (segs : List (List Char × List Char)) :
    List Char :=
  segs.foldr (fun seg acc => val seg.1 ++ (seg.2 ++ acc)) []

/-- `substAll val lit0 segs` replaces every placeholder of the well-formed
template `assemble lit0 segs` by its value, simultaneously and literally. -/
def substAll (val : List Char → List Char) (lit0 : List Char)
    (segs : List (List Char × List Char)) : List Char :=
  lit0 ++ substTail val segs

/-- Well-formed segments: every name is non-empty and brace-free, every
literal is brace-free. -/
def wfSegs (segs : List (List Char × List Char)) : Prop :=
  ∀ seg ∈ segs, seg.1 ≠ [] ∧ braceFree seg.1 ∧ braceFree seg.2

instance braceFreeDecidable (l : List Char) : Decidable (braceFree l) :=
  inferInstanceAs (Decidable (∀ c ∈ l, c ≠ lbrace ∧ c ≠ rbrace))

instance wfSegsDecidable (segs : List (List Char × List Char)) : Decidable (wfSegs segs) :=
  inferInstanceAs (Decidable (∀ seg ∈ segs, seg.1 ≠ [] ∧ braceFree seg.1 ∧ braceFree seg.2))

theorem braceFree_append {a b : List Char} :
    braceFree (a ++ b) ↔ braceFree a ∧ braceFree b := by
  simp only [braceFree, List.mem_append, or_imp, forall_and]
  tauto

theorem braceFree_nil : braceFree [] := by
  intro c hc
  exact absurd hc (List.not_mem_nil c)

/-- Scanning a brace-free chunk in search state finds nothing. -/
theorem phAux_skip {lam : List Char} (hl : braceFree lam) (r : List Char) :
    phAux (lam ++ r) none = phAux r none := by
  induction lam with
  | nil => rfl
  | cons c cs ih =>
    have hc := hl c (by simp)
    show phAux (c :: (cs ++ r)) none = _
    rw [show phAux (c :: (cs ++ r)) none = if c = lbrace then phAux (cs ++ r) (some [])
        else phAux (cs ++ r) none from rfl, if_neg hc.1]
    exact ih (fun d hd => hl d (by simp [hd]))

/-- Collecting a brace-free name up to the closing brace emits it. -/
theorem phAux_collect {nm : List Char} (hnm : braceFree nm) :
    ∀ (acc rest : List Char), (acc ≠ [] ∨ nm ≠ []) →
      phAux (nm ++ rbrace :: rest) (some acc) =
        (acc.reverse ++ nm) :: phAux rest none := by
  induction nm with
  | nil =>
    intro acc rest hne
    have hacc : acc ≠ [] := by
      rcases hne with h | h
      · exact h
      · exact absurd rfl h
    show phAux (rbrace :: rest) (some acc) = _
    rw [show phAux (rbrace :: rest) (some acc) =
        if (rbrace : Char) = rbrace then
          (if acc = [] then phAux rest none else acc.reverse :: phAux rest none)
        else if (rbrace : Char) = lbrace then phAux rest (some [])
        else phAux rest (some (rbrace :: acc)) from rfl]
    rw [if_pos rfl, if_neg hacc]
    simp
  | cons c cs ih =>
    intro acc rest _
    have hc := hnm c (by simp)
    show phAux (c :: (cs ++ rbrace :: rest)) (some acc) = _
    rw [show phAux (c :: (cs ++ rbrace :: rest)) (some acc) =
        if c = rbrace then
          (if acc = [] then phAux (cs ++ rbrace :: rest) none
           else acc.reverse :: phAux (cs ++ rbrace :: rest) none)
        else if c = lbrace then phAux (cs ++ rbrace :: rest) (some [])
        else phAux (cs ++ rbrace :: rest) (some (c :: acc)) from rfl]
    rw [if_neg hc.2, if_neg hc.1]
    rw [ih (fun d hd => hnm d (by simp [hd])) (c :: acc) rest (Or.inl (by simp))]
    simp

/-- Extraction on a well-formed template yields exactly the segment names,
in order. -/
theorem phAux_assemble :
    ∀ (segs : List (List Char × List Char)), wfSegs segs →
      ∀ (lit0 : List Char), braceFree lit0 →
        phAux (assemble lit0 segs) none = segs.map (fun seg => seg.1) := by
  intro segs
  induction segs with
  | nil =>
    intro _ lit0 h0
    show phAux (lit0 ++ []) none = []
    rw [phAux_skip h0]
    rfl
  | cons seg rest ih =>
    intro hwf lit0 h0
    obtain ⟨hne, hnm, hlit⟩ := hwf seg (by simp)
    have hrest : wfSegs rest := fun s hs => hwf s (by simp [hs])
    show phAux (lit0 ++ (lbrace :: seg.1 ++ rbrace :: (seg.2 ++ assembleTail rest))) none = _
    rw [phAux_skip h0]
    rw [show phAux (lbrace :: seg.1 ++ rbrace :: (seg.2 ++ assembleTail rest)) none =
        phAux (seg.1 ++ rbrace :: (seg.2 ++ assembleTail rest)) (some []) by
      rw [show (lbrace :: seg.1 ++ rbrace :: (seg.2 ++ assembleTail rest)) =
          lbrace :: (seg.1 ++ rbrace :: (seg.2 ++ assembleTail rest)) from rfl]
      rw [show phAux (lbrace :: (seg.1 ++ rbrace :: (seg.2 ++ assembleTail rest))) none =
          if lbrace = lbrace then phAux (seg.1 ++ rbrace :: (seg.2 ++ assembleTail rest)) (some [])
          else phAux (seg.1 ++ rbrace :: (seg.2 ++ assembleTail rest)) none from rfl,
        if_pos rfl]]
    rw [phAux_collect hnm [] _ (Or.inr hne)]
    rw [show ([] : List Char).reverse ++ seg.1 = seg.1 by simp]
    rw [phAux_skip hlit]
    have htail := ih hrest [] braceFree_nil
    rw [show assemble [] rest = assembleTail rest from rfl] at htail
    rw [htail]
    rfl

/-- The pattern string `'{' + name + '}'` used by the substitution loop. -/
def phPat (n : List Char) : List Char :=
  lbrace :: n ++ [rbrace]

/-- Replacement scans past characters that cannot start the pattern. -/
theorem replaceAux_skip {lam : List Char} (hl : ∀ c ∈ lam, c ≠ lbrace)
    (n v s : List Char) :
    replaceAux (phPat n) v (lam ++ s) = lam ++ replaceAux (phPat n) v s := by
  induction lam with
  | nil => rfl
  | cons c cs ih =>
    have hc := hl c (by simp)
    show replaceAux (phPat n) v (c :: (cs ++ s)) = _
    rw [replaceAux_cons_neg]
    · rw [ih (fun d hd => hl d (by simp [hd]))]
      rfl
    · rintro ⟨hp, -⟩
      rw [show phPat n = lbrace :: (n ++ [rbrace]) from rfl] at hp
      exact hc (List.cons_prefix_cons.mp hp).1.symm

/-- Among well-formed names, the pattern `{n}` is a prefix of
`{m}` followed by anything iff the names coincide. -/
theorem phPat_prefix_iff {n m : List Char} (hn : braceFree n) (hm : braceFree m)
    (r : List Char) :
    phPat n <+: (lbrace :: m ++ rbrace :: r) ↔ n = m := by
  rw [show phPat n = lbrace :: (n ++ [rbrace]) from rfl,
    show (lbrace :: m ++ rbrace :: r) = lbrace :: (m ++ rbrace :: r) from rfl,
    List.cons_prefix_cons]
  simp only [true_and]
  induction n generalizing m with
  | nil =>
    cases m with
    | nil => simp
    | cons c m' =>
      have hc := hm c (by simp)
      constructor
      · intro hp
        rw [show (c :: m' ++ rbrace :: r) = c :: (m' ++ rbrace :: r) from rfl] at hp
        rw [show (([] : List Char) ++ [rbrace]) = rbrace :: ([] : List Char) from rfl] at hp
        exact absurd (List.cons_prefix_cons.mp hp).1.symm hc.2
      · intro hp
        exact absurd hp (by simp)
  | cons a n' ihn =>
    have ha := hn a (by simp)
    cases m with
    | nil =>
      constructor
      · intro hp
        rw [show ((a :: n') ++ [rbrace]) = a :: (n' ++ [rbrace]) from rfl] at hp
        rw [show (([] : List Char) ++ rbrace :: r) = rbrace :: r from rfl] at hp
        exact absurd (List.cons_prefix_cons.mp hp).1 ha.2
      · intro hp
        exact absurd hp (by simp)
    | cons c m' =>
      have ihn' := ihn (fun d hd => hn d (by simp [hd]))
        (m := m') (fun d hd => hm d (by simp [hd]))
      rw [show ((a :: n') ++ [rbrace]) = a :: (n' ++ [rbrace]) from rfl,
        show ((c :: m') ++ rbrace :: r) = c :: (m' ++ rbrace :: r) from rfl,
        List.cons_prefix_cons]
      constructor
      · rintro ⟨rfl, hp⟩
        rw [ihn'.mp hp]
      · intro h
        injection h with h1 h2
        subst h1
        subst h2
        exact ⟨rfl, ihn'.mpr rfl⟩

/-- Replacing the pattern at its own occurrence consumes it. -/
theorem replaceAux_pat_self (n v rest : List Char) :
    replaceAux (phPat n) v (phPat n ++ rest) = v ++ replaceAux (phPat n) v rest := by
  show replaceAux (phPat n) v (lbrace :: ((n ++ [rbrace]) ++ rest)) = _
  rw [replaceAux_cons_pos v ?hpre (by simp [phPat])]
  case hpre =>
    refine ⟨rest, ?_⟩
    simp [phPat]
  congr 1
  rw [show (phPat n).length - 1 = (n ++ [rbrace]).length by simp [phPat]]
  rw [List.drop_left]

/-- The effect of one sequential `replace('{n}', v)` pass on a well-formed
template, in alternating form: every segment named `n` collapses into the
surrounding literal text (with `v` in place of the placeholder), all other
segments survive.  Returns the literal text to append to `lit0` and the
surviving segments. -/
def substName (n v : List Char) : List (List Char × List Char) →
    List Char × List (List Char × List Char)
  | [] => ([], [])
  | seg :: rest =>
    let r := substName n v rest
    if seg.1 = n then (v ++ seg.2 ++ r.1, r.2)
    else ([], (seg.1, seg.2 ++ r.1) :: r.2)

theorem substName_names (n v : List Char) :
    ∀ segs : List (List Char × List Char),
      (substName n v segs).2.map (fun seg => seg.1) =
        (segs.map (fun seg => seg.1)).filter (fun nm => nm ≠ n) := by
  intro segs
  induction segs with
  | nil => rfl
  | cons seg rest ih =>
    by_cases h : seg.1 = n
    · simp only [substName, if_pos h, List.map_cons]
      rw [List.filter_cons_of_neg (by simp [h])]
      exact ih
    · simp only [substName, if_neg h, List.map_cons]
      rw [List.filter_cons_of_pos (by simp [h])]
      rw [ih]

theorem substName_wf {n v : List Char} (hv : braceFree v) :
    ∀ segs : List (List Char × List Char), wfSegs segs →
      braceFree (substName n v segs).1 ∧ wfSegs (substName n v segs).2 := by
  intro segs
  induction segs with
  | nil => exact fun _ => ⟨braceFree_nil, fun s hs => absurd hs (List.not_mem_nil s)⟩
  | cons seg rest ih =>
    intro hwf
    obtain ⟨hne, hnm, hlit⟩ := hwf seg (by simp)
    obtain ⟨hp, hsegs⟩ := ih (fun s hs => hwf s (by simp [hs]))
    by_cases h : seg.1 = n
    · simp only [substName, if_pos h]
      refine ⟨?_, hsegs⟩
      rw [braceFree_append]
      refine ⟨?_, hp⟩
      rw [braceFree_append]
      exact ⟨hv, hlit⟩
    · simp only [substName, if_neg h]
      refine ⟨braceFree_nil, ?_⟩
      intro s hs
      rcases List.mem_cons.mp hs with rfl | hs
      · refine ⟨hne, hnm, ?_⟩
        rw [braceFree_append]
        exact ⟨hlit, hp⟩
      · exact hsegs s hs

/-- One sequential `str.replace('{n}', v)` pass over a well-formed template
equals collapsing the segments named `n`. -/
theorem replaceAux_assemble {n v : List Char} (hn : braceFree n) (hne : n ≠ []) :
    ∀ (segs : List (List Char × List Char)), wfSegs segs →
      ∀ (lit0 : List Char), braceFree lit0 →
        replaceAux (phPat n) v (assemble lit0 segs) =
          assemble (lit0 ++ (substName n v segs).1) (substName n v segs).2 := by
  intro segs
  induction segs with
  | nil =>
    intro _ lit0 h0
    show replaceAux (phPat n) v (lit0 ++ []) = _
    rw [replaceAux_skip (fun c hc => (h0 c hc).1)]
    show lit0 ++ [] = (lit0 ++ []) ++ []
    simp
  | cons seg rest ih =>
    intro hwf lit0 h0
    obtain ⟨hsne, hsnm, hslit⟩ := hwf seg (by simp)
    have hrest : wfSegs rest := fun s hs => hwf s (by simp [hs])
    have ihtail := ih hrest [] braceFree_nil
    rw [show assemble [] rest = assembleTail rest from rfl] at ihtail
    rw [show assemble ([] ++ (substName n v rest).1) (substName n v rest).2 =
        (substName n v rest).1 ++ assembleTail (substName n v rest).2 from rfl] at ihtail
    show replaceAux (phPat n) v
        (lit0 ++ (lbrace :: seg.1 ++ rbrace :: (seg.2 ++ assembleTail rest))) = _
    rw [replaceAux_skip (fun c hc => (h0 c hc).1)]
    by_cases h : seg.1 = n
    · subst h
      rw [show (lbrace :: seg.1 ++ rbrace :: (seg.2 ++ assembleTail rest)) =
          phPat seg.1 ++ (seg.2 ++ assembleTail rest) by simp [phPat]]
      rw [replaceAux_pat_self]
      rw [replaceAux_skip (fun c hc => (hslit c hc).1)]
      rw [ihtail]
      have hsub : substName seg.1 v (seg :: rest) =
          (v ++ seg.2 ++ (substName seg.1 v rest).1, (substName seg.1 v rest).2) := by
        simp [substName]
      rw [show assemble (lit0 ++ (substName seg.1 v (seg :: rest)).1)
          (substName seg.1 v (seg :: rest)).2 =
          lit0 ++ (substName seg.1 v (seg :: rest)).1 ++
            assembleTail (substName seg.1 v (seg :: rest)).2 from rfl]
      rw [hsub]
      simp [List.append_assoc]
    · rw [show (lbrace :: seg.1 ++ rbrace :: (seg.2 ++ assembleTail rest)) =
          lbrace :: (seg.1 ++ rbrace :: (seg.2 ++ assembleTail rest)) from rfl]
      rw [replaceAux_cons_neg v (by
        rintro ⟨hp, -⟩
        exact h ((phPat_prefix_iff hn hsnm _).mp (by
          rw [show (lbrace :: seg.1 ++ rbrace :: (seg.2 ++ assembleTail rest)) =
            lbrace :: (seg.1 ++ rbrace :: (seg.2 ++ assembleTail rest)) from rfl]
          exact hp)).symm)]
      rw [replaceAux_skip (fun c hc => (hsnm c hc).1)]
      rw [show (rbrace :: (seg.2 ++ assembleTail rest)) =
          [rbrace] ++ (seg.2 ++ assembleTail rest) from rfl]
      rw [replaceAux_skip (by
        intro c hc
        rw [List.mem_singleton.mp hc]
        decide)]
      rw [replaceAux_skip (fun c hc => (hslit c hc).1)]
      rw [ihtail]
      have hsub : substName n v (seg :: rest) =
          ([], (seg.1, seg.2 ++ (substName n v rest).1) :: (substName n v rest).2) := by
        simp [substName, h]
      rw [show assemble (lit0 ++ (substName n v (seg :: rest)).1)
          (substName n v (seg :: rest)).2 =
          lit0 ++ (substName n v (seg :: rest)).1 ++
            assembleTail (substName n v (seg :: rest)).2 from rfl]
      rw [hsub]
      show _ = (lit0 ++ []) ++
        (lbrace :: seg.1 ++ rbrace :: ((seg.2 ++ (substName n v rest).1) ++
          assembleTail (substName n v rest).2))
      simp [List.append_assoc]

/-- Collapsing segments named `n` commutes with the simultaneous
substitution when `n`'s value is used. -/
theorem substAll_substName (val : List Char → List Char) (n : List Char) :
    ∀ (segs : List (List Char × List Char)) (lit0 : List Char),
      substAll val (lit0 ++ (substName n (val n) segs).1) (substName n (val n) segs).2 =
        substAll val lit0 segs := by
  intro segs
  induction segs with
  | nil =>
    intro lit0
    show (lit0 ++ []) ++ [] = lit0 ++ []
    simp
  | cons seg rest ih =>
    intro lit0
    by_cases h : seg.1 = n
    · have hsub : substName n (val n) (seg :: rest) =
          (val n ++ seg.2 ++ (substName n (val n) rest).1, (substName n (val n) rest).2) := by
        simp [substName, h]
      rw [hsub]
      have ihx := ih (lit0 ++ val n ++ seg.2)
      rw [show substAll val ((lit0 ++ val n ++ seg.2) ++ (substName n (val n) rest).1)
          (substName n (val n) rest).2 =
          ((lit0 ++ val n ++ seg.2) ++ (substName n (val n) rest).1) ++
            substTail val (substName n (val n) rest).2 from rfl] at ihx
      rw [show substAll val (lit0 ++ val n ++ seg.2) rest =
          (lit0 ++ val n ++ seg.2) ++ substTail val rest from rfl] at ihx
      show (lit0 ++ (val n ++ seg.2 ++ (substName n (val n) rest).1)) ++
          substTail val (substName n (val n) rest).2 =
        lit0 ++ (val seg.1 ++ (seg.2 ++ substTail val rest))
      rw [h]
      have goal2 : (lit0 ++ val n ++ seg.2) ++ ((substName n (val n) rest).1 ++
          substTail val (substName n (val n) rest).2) =
          (lit0 ++ val n ++ seg.2) ++ substTail val rest := by
        rw [← List.append_assoc]
        exact ihx
      calc (lit0 ++ (val n ++ seg.2 ++ (substName n (val n) rest).1)) ++
          substTail val (substName n (val n) rest).2
          = (lit0 ++ val n ++ seg.2) ++ ((substName n (val n) rest).1 ++
            substTail val (substName n (val n) rest).2) := by
            simp [List.append_assoc]
        _ = (lit0 ++ val n ++ seg.2) ++ substTail val rest := goal2
        _ = lit0 ++ (val n ++ (seg.2 ++ substTail val rest)) := by
            simp [List.append_assoc]
    · have hsub : substName n (val n) (seg :: rest) =
          ([], (seg.1, seg.2 ++ (substName n (val n) rest).1) :: (substName n (val n) rest).2) := by
        simp [substName, h]
      rw [hsub]
      have ihx := ih seg.2
      rw [show substAll val (seg.2 ++ (substName n (val n) rest).1)
          (substName n (val n) rest).2 =
          (seg.2 ++ (substName n (val n) rest).1) ++
            substTail val (substName n (val n) rest).2 from rfl] at ihx
      rw [show substAll val seg.2 rest = seg.2 ++ substTail val rest from rfl] at ihx
      show (lit0 ++ []) ++
          (val seg.1 ++ ((seg.2 ++ (substName n (val n) rest).1) ++
            substTail val (substName n (val n) rest).2)) =
        lit0 ++ (val seg.1 ++ (seg.2 ++ substTail val rest))
      rw [List.append_assoc seg.2 (substName n (val n) rest).1
        (substTail val (substName n (val n) rest).2)] at ihx ⊢
      rw [ihx]
      simp

/-- The sequential replacement loop (one `str.replace` per extracted name,
in order) over a well-formed template whose segment names all occur in the
name list equals the simultaneous literal substitution. -/
theorem seqSubst_eq_substAll (val : List Char → List Char) :
    ∀ (ns : List (List Char)) (segs : List (List Char × List Char)) (lit0 : List Char),
      braceFree lit0 → wfSegs segs →
      (∀ nm ∈ ns, nm ≠ [] ∧ braceFree nm ∧ braceFree (val nm)) →
      (∀ nm ∈ segs.map (fun seg => seg.1), nm ∈ ns) →
      ns.foldl (fun r nm => replaceAux (phPat nm) (val nm) r) (assemble lit0 segs) =
        substAll val lit0 segs := by
  intro ns
  induction ns with
  | nil =>
    intro segs lit0 h0 hwf _ hsub
    cases segs with
    | nil => simp [assemble, substAll, assembleTail, substTail]
    | cons seg rest => exact absurd (hsub seg.1 (by simp)) (List.not_mem_nil seg.1)
  | cons n ns ih =>
    intro segs lit0 h0 hwf hns hsub
    obtain ⟨hne, hnm, hv⟩ := hns n (by simp)
    rw [List.foldl_cons]
    rw [replaceAux_assemble hnm hne segs hwf lit0 h0]
    obtain ⟨hp, hwf'⟩ := substName_wf hv segs hwf
    rw [ih (substName n (val n) segs).2 (lit0 ++ (substName n (val n) segs).1)
      (braceFree_append.mpr ⟨h0, hp⟩) hwf'
      (fun nm hm => hns nm (by simp [hm]))
      ?_]
    · exact substAll_substName val n segs lit0
    · intro x hx
      rw [substName_names, List.mem_filter] at hx
      have hxne : x ≠ n := by simpa using hx.2
      have hxmem := hsub x hx.1
      rcases List.mem_cons.mp hxmem with h1 | hmem
      · exact absurd h1 hxne
      · exact hmem

/-- C5 counterexample: substitution is sequential, not simultaneous.  With
template `"{a} {b}"` and mapping `a ↦ "{b}", b ↦ "z"`, the renderer returns
`"z z"`: the placeholder-shaped text `"{b}"` contained in the substituted
value of `a` IS itself replaced by the later pass for `b`, whereas literal
non-recursive substitution would produce `"{b} z"`. -/
theorem c5_counterexample :
    render_template "\x7ba\x7d \x7bb\x7d" [("a", "\x7bb\x7d"), ("b", "z")] = some "z z" ∧
    String.mk (substAll (fun nm =>
        ((([("a", "\x7bb\x7d"), ("b", "z")] : List (String × String)).lookup
          (String.mk nm)).getD "").data)
      [] [("a".data, " ".data), ("b".data, [])]) = "\x7bb\x7d z" ∧
    ("z z" : String) ≠ "\x7bb\x7d z" := by
  refine ⟨by decide, by decide, by decide⟩

/-- C5 amended: on templates whose brace characters all belong to matched
placeholders (alternating form `lit0 {n₁} lit₁ …` with brace-free names and
literals) and mappings whose values are non-empty and brace-free, rendering
substitutes literally and non-recursively: it equals the whitespace
normalization of the simultaneous single-pass substitution `substAll`, in
which each value is copied verbatim and placeholder-shaped text inside a
value is never replaced.  (Without the brace-free restriction the sequential
replacement loop can substitute inside earlier-substituted values, as the
counterexample shows.) -/
theorem c5_literal_substitution (lit0 : List Char) (segs : List (List Char × List Char))
    (m : List (String × String))
    (h0 : braceFree lit0)
    (hwf : wfSegs segs)
    (hvals : ∀ seg ∈ segs, ((m.lookup (String.mk seg.1)).getD "") ≠ "" ∧
      braceFree ((m.lookup (String.mk seg.1)).getD "").data) :
    render_template (String.mk (assemble lit0 segs)) m =
      (if normalizeWs (substAll
          (fun nm => ((m.lookup (String.mk nm)).getD "").data) lit0 segs) = []
       then none
       else some (String.mk (normalizeWs (substAll
          (fun nm => ((m.lookup (String.mk nm)).getD "").data) lit0 segs)))) := by
  have hext : extract_placeholders (String.mk (assemble lit0 segs)) =
      (segs.map (fun seg => seg.1)).map String.mk := by
    rw [extract_placeholders]
    rw [show (String.mk (assemble lit0 segs)).data = assemble lit0 segs from rfl]
    rw [phAux_assemble segs hwf lit0 h0]
  have hallE : (extract_placeholders (String.mk (assemble lit0 segs))).all (fun name =>
      match m.lookup name with
      | some v => !(v == "")
      | none => false) = true := by
    rw [hext, List.all_eq_true]
    intro name hname
    rw [List.mem_map] at hname
    obtain ⟨nm, hnm, rfl⟩ := hname
    rw [List.mem_map] at hnm
    obtain ⟨seg, hseg, rfl⟩ := hnm
    obtain ⟨hv1, _⟩ := hvals seg hseg
    cases hl : m.lookup (String.mk seg.1) with
    | none => rw [hl] at hv1; exact absurd rfl hv1
    | some v =>
      rw [hl] at hv1
      simpa using hv1
  have hsubst : substFold (assemble lit0 segs) m
      ((segs.map (fun seg => seg.1)).map String.mk) =
      substAll (fun nm => ((m.lookup (String.mk nm)).getD "").data) lit0 segs := by
    rw [substFold, List.foldl_map]
    refine seqSubst_eq_substAll _ (segs.map (fun seg => seg.1)) segs lit0 h0 hwf ?_
      (fun nm h => h)
    intro nm hnm
    rw [List.mem_map] at hnm
    obtain ⟨seg, hseg, rfl⟩ := hnm
    obtain ⟨hne, hbf, _⟩ := hwf seg hseg
    obtain ⟨_, hv2⟩ := hvals seg hseg
    exact ⟨hne, hbf, hv2⟩
  show (if (extract_placeholders (String.mk (assemble lit0 segs))).all (fun name =>
      match m.lookup name with
      | some v => !(v == "")
      | none => false) = true then _ else _) = _
  rw [if_pos hallE]
  rw [hext]
  rw [show (String.mk (assemble lit0 segs)).data = assemble lit0 segs from rfl]
  rw [hsubst]

/-- Witness for C5 at the template `"{core} in {city}"` with mapping
`core ↦ "shoes", city ↦ "Reno"`. -/
theorem c5_literal_substitution_witness :
    render_template (String.mk (assemble []
        [("core".data, " in ".data), ("city".data, [])]))
      [("core", "shoes"), ("city", "Reno")] =
      (if normalizeWs (substAll
          (fun nm => ((([("core", "shoes"), ("city", "Reno")] :
            List (String × String)).lookup (String.mk nm)).getD "").data)
          [] [("core".data, " in ".data), ("city".data, [])]) = []
       then none
       else some (String.mk (normalizeWs (substAll
          (fun nm => ((([("core", "shoes"), ("city", "Reno")] :
            List (String × String)).lookup (String.mk nm)).getD "").data)
          [] [("core".data, " in ".data), ("city".data, [])])))) :=
  c5_literal_substitution [] [("core".data, " in ".data), ("city".data, [])]
    [("core", "shoes"), ("city", "Reno")] (by decide) (by decide) (by decide)
